import Mathlib

/-!
# level06 keygen (`level06/Ressources/keygen.c`)

A shallow embedding of `calculate_serial` and `main`, and the properties of the
written specification checked against it.

Modelling conventions.

* A `char` cell is a `Byte` (`Fin 256`), its raw eight bits.  A `const char *`
  is the list of cells from the pointer to the end of the object; a read past
  the end of that list is an out-of-bounds access (`Outcome.undef`).
* `unsigned int` is 32 bits wide: a `Nat` below `2 ^ 32`, every addition reduced
  `% 2 ^ 32`.
* Whether plain `char` is signed is left to the C implementation; it is the
  parameter `charSigned` (true on the x86 targets of this repository).
* The standard streams are the `World`; `exit` ends the run with
  `Outcome.exit`.
-/

namespace Keygen

set_option maxRecDepth 8000

/-- One `char` cell, as its raw eight bits. -/
abbrev Byte := Fin 256

/-- The three standard streams: what is still to be read from `stdin`, and
what has been written to `stdout` and `stderr`. -/
structure World where
  stdin : List Byte
  stdout : String
  stderr : String
deriving DecidableEq, Repr

/-- How a call ends: it returns a value to its caller, it ends the process
through `exit`, or it reads outside the object it was given. -/
inductive Outcome (α : Type) where
  | ret (val : α) (w : World)
  | exit (status : Nat) (w : World)
  | undef
deriving DecidableEq, Repr

/-- The value handed back to the caller, when the call returns. -/
def Outcome.value? {α : Type} : Outcome α → Option α
  | .ret v _ => some v
  | .exit _ _ => none
  | .undef => none

/-- Number of values of an `unsigned int`. -/
def UINT_SIZE : Nat := 2 ^ 32

/-- The conversion `(unsigned int)c` of a `char` cell: the value of the `char`
reduced modulo `2 ^ 32`.  With a signed `char` the cells `0x80..0xFF` hold the
values `-128..-1`, which convert to `0xFFFFFF80..0xFFFFFFFF`. -/
def toUnsignedInt (charSigned : Bool) (c : Byte) : Nat :=
  if charSigned && decide (128 ≤ c.val) then c.val + (UINT_SIZE - 256) else c.val

/-- `strlen`: the number of cells before the first NUL. -/
def strlen : List Byte → Option Nat
  | [] => none
  | c :: rest => if c = 0 then some 0 else (strlen rest).map (· + 1)

/-- `fprintf(stderr, s)`. -/
def eprint (w : World) (s : String) : World :=
  ⟨w.stdin, w.stdout, w.stderr ++ s⟩

/-- `printf(s)`. -/
def print (w : World) (s : String) : World :=
  ⟨w.stdin, w.stdout ++ s, w.stderr⟩

/-- The initialiser `((unsigned int)login[3] ^ 0x1337) + 6221293`. -/
def v4_init (charSigned : Bool) (c : Byte) : Nat :=
  ((toUnsignedInt charSigned c ^^^ 0x1337) + 6221293) % UINT_SIZE

/-- The loop body `v4 += (v4 ^ (unsigned int)login[i]) % 0x539`. -/
def v4_step (charSigned : Bool) (v4 : Nat) (c : Byte) : Nat :=
  (v4 + (v4 ^^^ toUnsignedInt charSigned c) % 0x539) % UINT_SIZE

/-- The loop `for (i = 0; i < len; i++)`, entered with `n = len - i` rounds to
go, the index `i` and the current `v4`. -/
def serial_loop (charSigned : Bool) (login : List Byte) : Nat → Nat → Nat → Option Nat
  | 0, _, v4 => some v4
  | n + 1, i, v4 =>
    match login[i]? with
    | none => none
    | some c => serial_loop charSigned login n (i + 1) (v4_step charSigned v4 c)

/-- The function `calculate_serial`. -/
def calculate_serial (charSigned : Bool) (login : List Byte) (w : World) : Outcome Nat :=
  match strlen login with
  | none => .undef
  | some len =>
    if len < 4 then
      .exit 1 (eprint w "Login must be at least 4 characters\n")
    else
      match login[3]? with
      | none => .undef
      | some c3 =>
        match serial_loop charSigned login len 0 (v4_init charSigned c3) with
        | none => .undef
        | some v4 => .ret v4 w

/-- The characters `fgets` stores given room for `n` of them: up to and
including the first newline, or up to the end of the input. -/
def read_line : Nat → List Byte → List Byte
  | 0, _ => []
  | _ + 1, [] => []
  | n + 1, c :: rest => if c = 10 then [c] else c :: read_line n rest

/-- `fgets(s, size, stdin)`: at most `size - 1` characters are stored in `s`,
followed by a NUL.  At end of input with nothing read, `s` is left as it was.
The result is `none` when `s` has no room for `size` cells. -/
def fgets (s : List Byte) (size : Nat) (w : World) : Option (List Byte × World) :=
  if s.length < size then none
  else
    let line := read_line (size - 1) w.stdin
    if line = [] then some (s, w)
    else some (line ++ 0 :: s.drop (line.length + 1),
               ⟨w.stdin.drop line.length, w.stdout, w.stderr⟩)

/-- `strcspn(s, reject)`: the number of cells of `s` before the first one that
is NUL or occurs in `reject`. -/
def strcspn (reject : List Byte) : List Byte → Option Nat
  | [] => none
  | c :: rest =>
    if c = 0 ∨ c ∈ reject then some 0 else (strcspn reject rest).map (· + 1)

/-- The statement `login[strcspn(login, "\n")] = '\0'`. -/
def trim_newline (login : List Byte) : Option (List Byte) :=
  match strcspn [10] login with
  | none => none
  | some k => if k < login.length then some (login.set k 0) else none

/-- The function `main`, run with `login0` as the initial content of its
array `login[256]`. -/
def main (charSigned : Bool) (login0 : List Byte) (w : World) : Outcome Nat :=
  let w1 := print w "Enter login: "
  match fgets login0 256 w1 with
  | none => .undef
  | some (login1, w2) =>
    match trim_newline login1 with
    | none => .undef
    | some login =>
      match calculate_serial charSigned login w2 with
      | .undef => .undef
      | .exit status w3 => .exit status w3
      | .ret serial w3 => .ret 0 (print w3 ("Serial: " ++ toString serial ++ "\n"))

/-- The content of the C string held in a buffer: the cells before the first
NUL. -/
def cstr (buf : List Byte) : List Byte :=
  buf.takeWhile (fun c => c ≠ 0)

/-! ## The reference algorithm of the specification -/

/-- Seed of the specification: `(b3 XOR 0x1337) + 6221293` modulo `2 ^ 32`. -/
def spec_seed (b3 : Nat) : Nat :=
  ((b3 ^^^ 0x1337) + 6221293) % 2 ^ 32

/-- Update of the specification: `v + ((v XOR c) MOD 0x539)` modulo `2 ^ 32`. -/
def spec_step (v c : Nat) : Nat :=
  (v + (v ^^^ c) % 1337) % 2 ^ 32

/-- The reference serial over byte values `bs` already widened to integers:
seed from the value at index 3, then fold every value from index 0 on. -/
def spec_serial (bs : List Nat) : Nat :=
  bs.foldl spec_step (spec_seed (bs.getD 3 0))

/-- Zero extension of every byte of a login. -/
def zero_extend (login : List Byte) : List Nat :=
  login.map (fun c => c.val)

/-- Sign extension of every byte of a login to 32 bits. -/
def sign_extend (login : List Byte) : List Nat :=
  login.map (fun c => if 128 ≤ c.val then c.val + 0xFFFFFF00 else c.val)

/-- The diagnostic `calculate_serial` writes for a login that is too short. -/
def short_login_message : String := "Login must be at least 4 characters\n"

/-- An empty terminal session: nothing to read, nothing written yet. -/
def World.empty : World := ⟨[], "", ""⟩

/-- The login `main` hands to `calculate_serial` for the input `input`: of the
line `fgets` stores (at most 255 characters, up to and including the first
newline), the characters before the first newline or NUL. -/
def login_of_input (input : List Byte) : List Byte :=
  (read_line 255 input).takeWhile (fun c => decide (c ≠ 0 ∧ c ≠ 10))

/-- A sample run: the user types "abcd" and presses return. -/
def sample_session : World := ⟨[0x61, 0x62, 0x63, 0x64, 0x0A], "", ""⟩

/-- A sample initial content of the 256-byte array of `main`. -/
def sample_array : List Byte := List.replicate 256 0x41

/-! ## The algorithm over the unbounded integers -/

/-- Seed computed over the unbounded integers: `(b3 XOR 0x1337) + 6221293`,
with no reduction. -/
def exact_seed (b3 : Nat) : Nat :=
  (b3 ^^^ 0x1337) + 6221293

/-- Increment of one loop step: `(v XOR c) mod 1337`. -/
def step_increment (v c : Nat) : Nat :=
  (v ^^^ c) % 1337

/-- One loop step over the unbounded integers: the value plus its increment,
with no reduction. -/
def exact_step (v c : Nat) : Nat :=
  v + step_increment v c

/-- The serial over the unbounded integers: the seed plus the increments of all
steps, with no reduction anywhere. -/
def exact_serial (bs : List Nat) : Nat :=
  bs.foldl exact_step (exact_seed (bs.getD 3 0))

/-! ## Auxiliary lemmas -/

theorem strlen_append (L junk : List Byte) (h : ∀ c ∈ L, c ≠ 0) :
    strlen (L ++ 0 :: junk) = some L.length := by
  induction L with
  | nil => simp [strlen]
  | cons a t ih =>
    have ha : a ≠ 0 := h a (List.mem_cons_self a t)
    have ht : ∀ c ∈ t, c ≠ 0 := fun c hc => h c (List.mem_cons_of_mem a hc)
    simp [strlen, ha, ih ht]

theorem serial_loop_append (sgn : Bool) (L rest : List Byte) :
    ∀ (n i v : Nat), i + n = L.length →
      serial_loop sgn (L ++ rest) n i v = some ((L.drop i).foldl (v4_step sgn) v) := by
  intro n
  induction n with
  | zero =>
    intro i v hi
    have : L.drop i = [] := List.drop_eq_nil_of_le (by omega)
    simp [serial_loop, this]
  | succ n ih =>
    intro i v hi
    have hlt : i < L.length := by omega
    have hget : (L ++ rest)[i]? = some L[i] := by
      rw [List.getElem?_append_left hlt, List.getElem?_eq_getElem hlt]
    have hdrop : L.drop i = L[i] :: L.drop (i + 1) := List.drop_eq_getElem_cons hlt
    simp only [serial_loop, hget]
    rw [ih (i + 1) _ (by omega), hdrop, List.foldl_cons]

theorem calculate_serial_long (sgn : Bool) (L junk : List Byte) (w : World)
    (h0 : ∀ c ∈ L, c ≠ 0) (hlen : 4 ≤ L.length) :
    calculate_serial sgn (L ++ 0 :: junk) w
      = .ret (L.foldl (v4_step sgn) (v4_init sgn (L.getD 3 0))) w := by
  have h3 : 3 < L.length := by omega
  have hget : (L ++ 0 :: junk)[3]? = some L[3] := by
    rw [List.getElem?_append_left h3, List.getElem?_eq_getElem h3]
  have hD : L.getD 3 0 = L[3] := by
    simp [List.getD_eq_getElem?_getD, List.getElem?_eq_getElem h3]
  have hloop := serial_loop_append sgn L (0 :: junk) L.length 0 (v4_init sgn L[3]) (by omega)
  have hnot : ¬ L.length < 4 := by omega
  simp only [calculate_serial, strlen_append L junk h0, hnot, if_false, hget, hloop,
    List.drop_zero, hD]

theorem calculate_serial_short (sgn : Bool) (L junk : List Byte) (w : World)
    (h0 : ∀ c ∈ L, c ≠ 0) (hlen : L.length < 4) :
    calculate_serial sgn (L ++ 0 :: junk) w = .exit 1 (eprint w short_login_message) := by
  simp only [calculate_serial, strlen_append L junk h0, hlen, if_true, short_login_message]

theorem toUnsignedInt_low (sgn : Bool) (c : Byte) (h : c.val ≤ 0x7F) :
    toUnsignedInt sgn c = c.val := by
  have : ¬ 128 ≤ c.val := by omega
  simp [toUnsignedInt, this]

theorem v4_step_eq_spec (sgn : Bool) (v : Nat) (c : Byte) :
    v4_step sgn v c = spec_step v (toUnsignedInt sgn c) := rfl

theorem v4_init_eq_spec (sgn : Bool) (c : Byte) :
    v4_init sgn c = spec_seed (toUnsignedInt sgn c) := rfl

theorem foldl_v4_step_eq (sgn : Bool) (L : List Byte) (v : Nat) :
    L.foldl (v4_step sgn) v = (L.map (toUnsignedInt sgn)).foldl spec_step v := by
  rw [List.foldl_map]
  rfl

theorem map_toUnsignedInt_low (sgn : Bool) (L : List Byte) (h : ∀ c ∈ L, c.val ≤ 0x7F) :
    L.map (toUnsignedInt sgn) = zero_extend L := by
  unfold zero_extend
  exact List.map_congr_left (fun c hc => toUnsignedInt_low sgn c (h c hc))

theorem map_toUnsignedInt_unsigned (L : List Byte) :
    L.map (toUnsignedInt false) = zero_extend L := by
  unfold zero_extend
  exact List.map_congr_left (fun c _ => by simp [toUnsignedInt])

theorem map_toUnsignedInt_signed (L : List Byte) :
    L.map (toUnsignedInt true) = sign_extend L := by
  unfold sign_extend
  exact List.map_congr_left (fun c _ => by simp [toUnsignedInt, UINT_SIZE])

theorem calculate_serial_spec (sgn : Bool) (L junk : List Byte) (w : World)
    (h0 : ∀ c ∈ L, c ≠ 0) (hlen : 4 ≤ L.length) :
    calculate_serial sgn (L ++ 0 :: junk) w
      = .ret (spec_serial (L.map (toUnsignedInt sgn))) w := by
  rw [calculate_serial_long sgn L junk w h0 hlen, foldl_v4_step_eq, v4_init_eq_spec]
  have h3 : 3 < L.length := by omega
  simp [spec_serial, List.getD_eq_getElem?_getD, List.getElem?_eq_getElem h3]

theorem v4_step_lt (sgn : Bool) (v : Nat) (c : Byte) : v4_step sgn v c < 2 ^ 32 := by
  unfold v4_step UINT_SIZE
  exact Nat.mod_lt _ (by norm_num)

theorem v4_init_lt (sgn : Bool) (c : Byte) : v4_init sgn c < 2 ^ 32 := by
  unfold v4_init UINT_SIZE
  exact Nat.mod_lt _ (by norm_num)

theorem foldl_v4_step_lt (sgn : Bool) (L : List Byte) :
    ∀ v, v < 2 ^ 32 → L.foldl (v4_step sgn) v < 2 ^ 32 := by
  induction L with
  | nil => intro v hv; simpa using hv
  | cons a t ih => intro v _; exact ih _ (v4_step_lt sgn v a)

theorem foldl_four {α β : Type} (f : β → α → β) (s : β) (a b c d : α) :
    [a, b, c, d].foldl f s = f (f (f (f s a) b) c) d := rfl

theorem spec_serial_four (a b c d : Nat) :
    spec_serial [a, b, c, d]
      = spec_step (spec_step (spec_step (spec_step (spec_seed d) a) b) c) d := by
  unfold spec_serial
  rw [show [a, b, c, d].getD 3 0 = d from rfl]
  exact foldl_four spec_step (spec_seed d) a b c d

theorem strcspn_append (p rest : List Byte) (x : Byte)
    (hp : ∀ c ∈ p, c ≠ 0 ∧ c ≠ 10) (hx : x = 0 ∨ x = 10) :
    strcspn [10] (p ++ x :: rest) = some p.length := by
  induction p with
  | nil => simp [strcspn, hx]
  | cons a t ih =>
    have ha := hp a (List.mem_cons_self a t)
    have ht : ∀ c ∈ t, c ≠ 0 ∧ c ≠ 10 := fun c hc => hp c (List.mem_cons_of_mem a hc)
    simp [strcspn, ha.1, ha.2, ih ht]

theorem set_length_append (p rest : List Byte) (x y : Byte) :
    (p ++ x :: rest).set p.length y = p ++ y :: rest := by
  induction p with
  | nil => rfl
  | cons a t ih => simp [List.set, ih]

theorem trim_newline_append (p rest : List Byte) (x : Byte)
    (hp : ∀ c ∈ p, c ≠ 0 ∧ c ≠ 10) (hx : x = 0 ∨ x = 10) :
    trim_newline (p ++ x :: rest) = some (p ++ 0 :: rest) := by
  have hlt : p.length < (p ++ x :: rest).length := by simp
  simp only [trim_newline, strcspn_append p rest x hp hx, hlt, if_true, set_length_append]

theorem cstr_append (p rest : List Byte) (hp : ∀ c ∈ p, c ≠ 0) :
    cstr (p ++ 0 :: rest) = p := by
  unfold cstr
  rw [List.takeWhile_append_of_pos (fun c hc => by simpa using hp c hc),
    List.takeWhile_cons_of_neg (by simp)]
  simp

theorem line_split (line junk : List Byte) :
    ∃ x rest, (x = 0 ∨ x = 10)
      ∧ line ++ 0 :: junk
          = line.takeWhile (fun c => decide (c ≠ 0 ∧ c ≠ 10)) ++ x :: rest := by
  induction line with
  | nil => exact ⟨0, junk, Or.inl rfl, rfl⟩
  | cons a t ih =>
    by_cases ha : a ≠ 0 ∧ a ≠ 10
    · obtain ⟨x, rest, hx, h⟩ := ih
      refine ⟨x, rest, hx, ?_⟩
      rw [List.takeWhile_cons_of_pos (by simpa using ha), List.cons_append, List.cons_append, h]
    · refine ⟨a, t ++ 0 :: junk, ?_, ?_⟩
      · by_cases h0 : a = 0
        · exact Or.inl h0
        · by_cases h10 : a = 10
          · exact Or.inr h10
          · exact absurd ⟨h0, h10⟩ ha
      · simp [List.takeWhile, ha]

theorem takeWhile_login_chars (line : List Byte) :
    ∀ c ∈ line.takeWhile (fun c => decide (c ≠ 0 ∧ c ≠ 10)), c ≠ 0 ∧ c ≠ 10 := by
  intro c hc
  have := List.mem_takeWhile_imp hc
  simpa using this

theorem read_line_ne_nil (n : Nat) (input : List Byte) (h : input ≠ []) :
    read_line (n + 1) input ≠ [] := by
  cases input with
  | nil => exact absurd rfl h
  | cons a t =>
    by_cases ha : a = 10 <;> simp [read_line, ha]

theorem read_line_length_le (n : Nat) : ∀ input : List Byte, (read_line n input).length ≤ n := by
  induction n with
  | zero => intro input; simp [read_line]
  | succ n ih =>
    intro input
    cases input with
    | nil => simp [read_line]
    | cons a t =>
      by_cases ha : a = 10
      · simp [read_line, ha]
      · have := ih t
        simp [read_line, ha]
        omega

theorem fgets_line (login0 : List Byte) (w : World)
    (hbuf : login0.length = 256) (hin : w.stdin ≠ []) :
    fgets login0 256 w
      = some (read_line 255 w.stdin ++ 0 :: login0.drop ((read_line 255 w.stdin).length + 1),
          ⟨w.stdin.drop (read_line 255 w.stdin).length, w.stdout, w.stderr⟩) := by
  have hne := read_line_ne_nil 254 w.stdin hin
  simp [fgets, hbuf, hne]

theorem main_eq (sgn : Bool) (login0 : List Byte) (w : World)
    (hbuf : login0.length = 256) (hin : w.stdin ≠ []) :
    ∃ rest, main sgn login0 w
      = match calculate_serial sgn (login_of_input w.stdin ++ 0 :: rest)
          ⟨w.stdin.drop (read_line 255 w.stdin).length, w.stdout ++ "Enter login: ",
            w.stderr⟩ with
        | .undef => .undef
        | .exit status w3 => .exit status w3
        | .ret serial w3 => .ret 0 (print w3 ("Serial: " ++ toString serial ++ "\n")) := by
  obtain ⟨x, rest, hx, hsplit⟩ :=
    line_split (read_line 255 w.stdin) (login0.drop ((read_line 255 w.stdin).length + 1))
  refine ⟨rest, ?_⟩
  have hfg := fgets_line login0 (print w "Enter login: ") hbuf hin
  have htrim := trim_newline_append _ rest x (takeWhile_login_chars (read_line 255 w.stdin)) hx
  unfold main
  simp only [hfg]
  simp only [print, hsplit, htrim, login_of_input]

theorem main_sample_run :
    main true sample_array sample_session
      = .ret 0 ⟨[], "Enter login: Serial: 6230372\n", ""⟩ := rfl

theorem main_short_run :
    main true sample_array ⟨[0x61, 0x20, 0x09, 0x0A, 0x62], "", ""⟩
      = .exit 1 ⟨[0x62], "Enter login: ", "Login must be at least 4 characters\n"⟩ := rfl

theorem xor_seed_mask_bounds :
    ∀ b : Fin 128, 4864 ≤ b.val ^^^ 0x1337 ∧ b.val ^^^ 0x1337 ≤ 4991 := by
  decide

theorem exact_seed_bounds (b : Nat) (hb : b ≤ 0x7F) :
    6226157 ≤ exact_seed b ∧ exact_seed b ≤ 6226284 := by
  have h := xor_seed_mask_bounds ⟨b, by omega⟩
  simp only at h
  unfold exact_seed
  omega

theorem v4_init_eq_exact (sgn : Bool) (c : Byte) (hc : c.val ≤ 0x7F) :
    v4_init sgn c = exact_seed c.val := by
  have h := exact_seed_bounds c.val hc
  unfold v4_init UINT_SIZE
  rw [toUnsignedInt_low sgn c hc]
  unfold exact_seed at h ⊢
  exact Nat.mod_eq_of_lt (by omega)

theorem step_increment_le (v c : Nat) : step_increment v c ≤ 1336 := by
  unfold step_increment
  have := Nat.mod_lt (v ^^^ c) (show 0 < 1337 by norm_num)
  omega

theorem exact_step_bounds (v c : Nat) : v ≤ exact_step v c ∧ exact_step v c ≤ v + 1336 := by
  have := step_increment_le v c
  unfold exact_step
  omega

theorem spec_step_eq_mod (v c : Nat) : spec_step v c = exact_step v c % 2 ^ 32 := by
  unfold spec_step exact_step step_increment
  exact Eq.refl _

theorem spec_step_eq_exact (v c : Nat) (h : exact_step v c < 2 ^ 32) :
    spec_step v c = exact_step v c := by
  rw [spec_step_eq_mod]
  exact Nat.mod_eq_of_lt h

theorem foldl_exact_step_bounds (bs : List Nat) :
    ∀ v, v ≤ bs.foldl exact_step v ∧ bs.foldl exact_step v ≤ v + 1336 * bs.length := by
  induction bs with
  | nil => intro v; simp
  | cons a t ih =>
    intro v
    have h1 := exact_step_bounds v a
    have h2 := ih (exact_step v a)
    simp only [List.foldl_cons, List.length_cons]
    omega

theorem foldl_spec_step_eq_exact (bs : List Nat) :
    ∀ v, v + 1336 * bs.length < 2 ^ 32 →
      bs.foldl spec_step v = bs.foldl exact_step v := by
  induction bs with
  | nil => intro v _; simp
  | cons a t ih =>
    intro v hv
    have h1 := exact_step_bounds v a
    simp only [List.length_cons] at hv
    have hlt : exact_step v a < 2 ^ 32 := by omega
    simp only [List.foldl_cons]
    rw [spec_step_eq_exact v a hlt]
    exact ih (exact_step v a) (by omega)

theorem calculate_serial_ascii (sgn : Bool) (L junk : List Byte) (w : World)
    (hlen : 4 ≤ L.length) (hb : ∀ c ∈ L, 1 ≤ c.val ∧ c.val ≤ 0x7F) :
    calculate_serial sgn (L ++ 0 :: junk) w = .ret (spec_serial (zero_extend L)) w := by
  have h0 : ∀ c ∈ L, c ≠ 0 := by
    intro c hc h
    have := (hb c hc).1
    rw [h] at this
    exact absurd this (by decide)
  rw [calculate_serial_spec sgn L junk w h0 hlen,
    map_toUnsignedInt_low sgn L (fun c hc => (hb c hc).2)]

/-! ## The claims -/

/-- C1: a login of fewer than 4 bytes (the empty login and every 3-byte login
included) makes `calculate_serial` fail with the invalid-input error, the
diagnostic "Login must be at least 4 characters" and exit status 1, and no
serial value is produced. -/
theorem C1_short_login_fails (sgn : Bool) (L junk : List Byte) (w : World)
    (h0 : ∀ c ∈ L, c ≠ 0) (hlen : L.length < 4) :
    calculate_serial sgn (L ++ 0 :: junk) w
        = .exit 1 ⟨w.stdin, w.stdout, w.stderr ++ "Login must be at least 4 characters\n"⟩
      ∧ (calculate_serial sgn (L ++ 0 :: junk) w).value? = none := by
  have h := calculate_serial_short sgn L junk w h0 hlen
  refine ⟨h, ?_⟩
  rw [h]
  rfl

theorem C1_short_login_fails_witness :
    ((∀ c ∈ ([0x61, 0x62, 0x63] : List Byte), c ≠ 0)
      ∧ ([0x61, 0x62, 0x63] : List Byte).length < 4)
    ∧ (calculate_serial true (([0x61, 0x62, 0x63] : List Byte) ++ 0 :: []) World.empty
        = .exit 1 ⟨World.empty.stdin, World.empty.stdout,
            World.empty.stderr ++ "Login must be at least 4 characters\n"⟩
      ∧ (calculate_serial true (([0x61, 0x62, 0x63] : List Byte) ++ 0 :: [])
          World.empty).value? = none) :=
  ⟨⟨by decide, by decide⟩,
    C1_short_login_fails true [0x61, 0x62, 0x63] [] World.empty (by decide) (by decide)⟩

/-- C2: for a login of length at least 4 whose bytes all lie in 0x01..0x7F,
`calculate_serial` returns exactly the reference value: the seed
`((b3 XOR 0x1337) + 6221293) mod 2^32` from the byte at index 3, folded with
`v := (v + ((v XOR c) mod 1337)) mod 2^32` over the bytes from index 0 to the
last one. -/
theorem C2_ascii_login_reference (sgn : Bool) (L junk : List Byte) (w : World)
    (hlen : 4 ≤ L.length) (hb : ∀ c ∈ L, 1 ≤ c.val ∧ c.val ≤ 0x7F) :
    calculate_serial sgn (L ++ 0 :: junk) w = .ret (spec_serial (zero_extend L)) w := by
  have h0 : ∀ c ∈ L, c ≠ 0 := by
    intro c hc h
    have := (hb c hc).1
    rw [h] at this
    exact absurd this (by decide)
  rw [calculate_serial_spec sgn L junk w h0 hlen,
    map_toUnsignedInt_low sgn L (fun c hc => (hb c hc).2)]

theorem C2_ascii_login_reference_witness :
    (4 ≤ ([0x6c, 0x6f, 0x67, 0x69, 0x6e] : List Byte).length
      ∧ (∀ c ∈ ([0x6c, 0x6f, 0x67, 0x69, 0x6e] : List Byte), 1 ≤ c.val ∧ c.val ≤ 0x7F))
    ∧ calculate_serial true (([0x6c, 0x6f, 0x67, 0x69, 0x6e] : List Byte) ++ 0 :: [7, 7])
        World.empty
      = .ret (spec_serial (zero_extend [0x6c, 0x6f, 0x67, 0x69, 0x6e])) World.empty :=
  ⟨⟨by decide, by decide⟩,
    C2_ascii_login_reference true [0x6c, 0x6f, 0x67, 0x69, 0x6e] [7, 7] World.empty
      (by decide) (by decide)⟩

/-- C3, as the specification states it, fails where `char` is signed: for the
login `61 62 63 80` the function returns the value of the reference algorithm
over the sign-extended bytes, which is not its value over the zero-extended
bytes. -/
theorem C3_counterexample :
    calculate_serial true (([0x61, 0x62, 0x63, 0x80] : List Byte) ++ 0 :: []) World.empty
        = .ret (spec_serial (sign_extend [0x61, 0x62, 0x63, 0x80])) World.empty
      ∧ calculate_serial true (([0x61, 0x62, 0x63, 0x80] : List Byte) ++ 0 :: []) World.empty
        ≠ .ret (spec_serial (zero_extend [0x61, 0x62, 0x63, 0x80])) World.empty := by
  constructor
  · decide
  · decide

/-- C3, amended: for a login of length at least 4 (in particular one holding a
byte of 0x80 or more) `calculate_serial` returns the value of the reference
algorithm over the bytes converted as C converts `char` to `unsigned int`, in
the seed and in every loop XOR: zero-extended where `char` is unsigned,
sign-extended (a byte `b >= 0x80` becomes `b + 0xFFFFFF00`) where `char` is
signed. -/
theorem C3_high_bytes_follow_char_signedness (sgn : Bool) (L junk : List Byte) (w : World)
    (h0 : ∀ c ∈ L, c ≠ 0) (hlen : 4 ≤ L.length) :
    calculate_serial sgn (L ++ 0 :: junk) w
      = .ret (spec_serial (if sgn then sign_extend L else zero_extend L)) w := by
  rw [calculate_serial_spec sgn L junk w h0 hlen]
  cases sgn
  · simp [map_toUnsignedInt_unsigned]
  · simp [map_toUnsignedInt_signed]

theorem C3_high_bytes_follow_char_signedness_witness :
    ((∀ c ∈ ([0xE9, 0x6C, 0x6F, 0xEF, 0x73, 0x65] : List Byte), c ≠ 0)
      ∧ 4 ≤ ([0xE9, 0x6C, 0x6F, 0xEF, 0x73, 0x65] : List Byte).length)
    ∧ calculate_serial true (([0xE9, 0x6C, 0x6F, 0xEF, 0x73, 0x65] : List Byte) ++ 0 :: [])
        World.empty
      = .ret (spec_serial (if true then sign_extend [0xE9, 0x6C, 0x6F, 0xEF, 0x73, 0x65]
          else zero_extend [0xE9, 0x6C, 0x6F, 0xEF, 0x73, 0x65])) World.empty :=
  ⟨⟨by decide, by decide⟩,
    C3_high_bytes_follow_char_signedness true [0xE9, 0x6C, 0x6F, 0xEF, 0x73, 0x65] []
      World.empty (by decide) (by decide)⟩

/-- C4: for a login of length at least 4, `calculate_serial` returns a serial
(a 32-bit value) and cannot fail: the read of `login[3]` and every read
`login[i]` of the loop is inside the login, so the loop runs to its end from any
start value, and the modulus `0x539` is the nonzero constant 1337. -/
theorem C4_long_login_cannot_fail (sgn : Bool) (L junk : List Byte) (w : World)
    (h0 : ∀ c ∈ L, c ≠ 0) (hlen : 4 ≤ L.length) :
    (∃ v, v < 2 ^ 32 ∧ calculate_serial sgn (L ++ 0 :: junk) w = .ret v w)
      ∧ (∃ c3, (L ++ 0 :: junk)[3]? = some c3)
      ∧ (∀ v0, ∃ v, serial_loop sgn (L ++ 0 :: junk) L.length 0 v0 = some v)
      ∧ (0x539 : Nat) = 1337 ∧ (0x539 : Nat) ≠ 0 := by
  have h3 : 3 < L.length := by omega
  refine ⟨⟨_, ?_, calculate_serial_long sgn L junk w h0 hlen⟩, ⟨L[3], ?_⟩, ?_, by norm_num,
    by norm_num⟩
  · exact foldl_v4_step_lt sgn L _ (v4_init_lt sgn _)
  · rw [List.getElem?_append_left h3, List.getElem?_eq_getElem h3]
  · intro v0
    exact ⟨_, serial_loop_append sgn L (0 :: junk) L.length 0 v0 (by omega)⟩

theorem C4_long_login_cannot_fail_witness :
    ((∀ c ∈ ([0x72, 0x6F, 0x6F, 0x74] : List Byte), c ≠ 0)
      ∧ 4 ≤ ([0x72, 0x6F, 0x6F, 0x74] : List Byte).length)
    ∧ ((∃ v, v < 2 ^ 32
          ∧ calculate_serial false (([0x72, 0x6F, 0x6F, 0x74] : List Byte) ++ 0 :: [])
              World.empty = .ret v World.empty)
      ∧ (∃ c3, (([0x72, 0x6F, 0x6F, 0x74] : List Byte) ++ 0 :: [])[3]? = some c3)
      ∧ (∀ v0, ∃ v, serial_loop false (([0x72, 0x6F, 0x6F, 0x74] : List Byte) ++ 0 :: [])
          ([0x72, 0x6F, 0x6F, 0x74] : List Byte).length 0 v0 = some v)
      ∧ (0x539 : Nat) = 1337 ∧ (0x539 : Nat) ≠ 0) :=
  ⟨⟨by decide, by decide⟩,
    C4_long_login_cannot_fail false [0x72, 0x6F, 0x6F, 0x74] [] World.empty
      (by decide) (by decide)⟩

/-- C5, as the specification states it, fails in its arithmetic: for "abcd" the
seed `(0x64 XOR 0x1337) + 6221293` computed by `calculate_serial` is
`4947 + 6221293 = 6226240`, not `4979 + 6221293 = 6226272`. -/
theorem C5_counterexample :
    (0x64 ^^^ 0x1337 : Nat) ≠ 4979
      ∧ v4_init true 0x64 ≠ 6226272 ∧ v4_init false 0x64 ≠ 6226272
      ∧ spec_seed 0x64 ≠ 6226272 := by
  decide

/-- C5, amended: for the login "abcd" (bytes 61 62 63 64) the seed computed by
`calculate_serial` is `(0x64 XOR 0x1337) + 6221293 = 4947 + 6221293 = 6226240`,
and the serial returned is the fold of 0x61, 0x62, 0x63, 0x64 in that order
through `v := (v + ((v XOR c) mod 1337)) mod 2^32` from 6226240, which is
6230372. -/
theorem C5_abcd_vector (sgn : Bool) (junk : List Byte) (w : World) :
    (0x64 ^^^ 0x1337 : Nat) = 4947
      ∧ v4_init sgn 0x64 = 6226240
      ∧ spec_step (spec_step (spec_step (spec_step 6226240 0x61) 0x62) 0x63) 0x64 = 6230372
      ∧ calculate_serial sgn (([0x61, 0x62, 0x63, 0x64] : List Byte) ++ 0 :: junk) w
          = .ret 6230372 w := by
  refine ⟨by decide, ?_, by decide, ?_⟩
  · cases sgn <;> decide
  · rw [calculate_serial_long sgn _ junk w (by decide) (by decide)]
    cases sgn <;> rfl

/-- C6, as the specification states it, fails: on the 3-byte login "abc"
`calculate_serial` does not return an error result to its caller; it writes the
diagnostic to `stderr` itself and ends the process with `exit(1)`. -/
theorem C6_counterexample :
    calculate_serial true (([0x61, 0x62, 0x63] : List Byte) ++ 0 :: []) World.empty
        = .exit 1 ⟨[], "", "Login must be at least 4 characters\n"⟩
      ∧ ¬ ∃ r w, calculate_serial true (([0x61, 0x62, 0x63] : List Byte) ++ 0 :: [])
            World.empty = .ret r w := by
  have h : calculate_serial true (([0x61, 0x62, 0x63] : List Byte) ++ 0 :: []) World.empty
      = .exit 1 ⟨[], "", "Login must be at least 4 characters\n"⟩ := rfl
  refine ⟨h, ?_⟩
  rintro ⟨r, w, hr⟩
  rw [h] at hr
  exact Outcome.noConfusion hr

/-- C6, amended: on a login of length at least 4 `calculate_serial` has no side
effect, it returns with the streams as it found them; on a login shorter than 4
bytes `calculate_serial` itself appends the diagnostic
"Login must be at least 4 characters" to `stderr`, leaves `stdin` and `stdout`
alone, and ends the process with exit status 1, so that control never comes back
to `main`. -/
theorem C6_effects_of_calculate_serial (sgn : Bool) (L junk : List Byte) (w : World)
    (h0 : ∀ c ∈ L, c ≠ 0) :
    (4 ≤ L.length → ∃ v, calculate_serial sgn (L ++ 0 :: junk) w = .ret v w)
      ∧ (L.length < 4 →
          calculate_serial sgn (L ++ 0 :: junk) w
            = .exit 1 ⟨w.stdin, w.stdout,
                w.stderr ++ "Login must be at least 4 characters\n"⟩) :=
  ⟨fun hlen => ⟨_, calculate_serial_long sgn L junk w h0 hlen⟩,
    fun hlen => calculate_serial_short sgn L junk w h0 hlen⟩

theorem C6_effects_of_calculate_serial_witness :
    (∀ c ∈ ([0x61, 0x62] : List Byte), c ≠ 0)
    ∧ ((4 ≤ ([0x61, 0x62] : List Byte).length →
          ∃ v, calculate_serial true (([0x61, 0x62] : List Byte) ++ 0 :: [])
            ⟨[0x0A], "Enter login: ", ""⟩ = .ret v ⟨[0x0A], "Enter login: ", ""⟩)
      ∧ (([0x61, 0x62] : List Byte).length < 4 →
          calculate_serial true (([0x61, 0x62] : List Byte) ++ 0 :: [])
              ⟨[0x0A], "Enter login: ", ""⟩
            = .exit 1 ⟨(⟨[0x0A], "Enter login: ", ""⟩ : World).stdin,
                (⟨[0x0A], "Enter login: ", ""⟩ : World).stdout,
                (⟨[0x0A], "Enter login: ", ""⟩ : World).stderr
                  ++ "Login must be at least 4 characters\n"⟩)) :=
  ⟨by decide,
    C6_effects_of_calculate_serial true [0x61, 0x62] [] ⟨[0x0A], "Enter login: ", ""⟩
      (by decide)⟩

/-- C7: for a login of exactly 4 bytes b0 b1 b2 b3, each in 0x01..0x7F, the
serial is `step(step(step(step(seed(b3), b0), b1), b2), b3)`: the loop runs
exactly 4 times and b3 is used twice, in the seed and in the last step. -/
theorem C7_four_byte_login (sgn : Bool) (b0 b1 b2 b3 : Byte) (junk : List Byte) (w : World)
    (h0 : 1 ≤ b0.val ∧ b0.val ≤ 0x7F) (h1 : 1 ≤ b1.val ∧ b1.val ≤ 0x7F)
    (h2 : 1 ≤ b2.val ∧ b2.val ≤ 0x7F) (h3 : 1 ≤ b3.val ∧ b3.val ≤ 0x7F) :
    calculate_serial sgn ([b0, b1, b2, b3] ++ 0 :: junk) w
      = .ret (spec_step (spec_step (spec_step (spec_step (spec_seed b3.val) b0.val) b1.val)
          b2.val) b3.val) w := by
  have hb : ∀ c ∈ [b0, b1, b2, b3], 1 ≤ c.val ∧ c.val ≤ 0x7F := by
    intro c hc
    simp only [List.mem_cons, List.mem_singleton, List.not_mem_nil, or_false] at hc
    rcases hc with rfl | rfl | rfl | rfl <;> assumption
  have hz : ∀ c ∈ [b0, b1, b2, b3], c ≠ 0 := by
    intro c hc h
    have := (hb c hc).1
    rw [h] at this
    exact absurd this (by decide)
  have hl : 4 ≤ [b0, b1, b2, b3].length := by simp
  have hze : zero_extend [b0, b1, b2, b3] = [b0.val, b1.val, b2.val, b3.val] := rfl
  rw [calculate_serial_spec sgn _ junk w hz hl,
    map_toUnsignedInt_low sgn _ (fun c hc => (hb c hc).2), hze, spec_serial_four]

theorem C7_four_byte_login_witness :
    ((1 ≤ (0x78 : Byte).val ∧ (0x78 : Byte).val ≤ 0x7F)
      ∧ (1 ≤ (0x78 : Byte).val ∧ (0x78 : Byte).val ≤ 0x7F)
      ∧ (1 ≤ (0x78 : Byte).val ∧ (0x78 : Byte).val ≤ 0x7F)
      ∧ (1 ≤ (0x78 : Byte).val ∧ (0x78 : Byte).val ≤ 0x7F))
    ∧ calculate_serial true ([(0x78 : Byte), 0x78, 0x78, 0x78] ++ 0 :: []) World.empty
      = .ret (spec_step (spec_step (spec_step (spec_step (spec_seed (0x78 : Byte).val)
          (0x78 : Byte).val) (0x78 : Byte).val) (0x78 : Byte).val) (0x78 : Byte).val)
          World.empty :=
  ⟨⟨by decide, by decide, by decide, by decide⟩,
    C7_four_byte_login true 0x78 0x78 0x78 0x78 [] World.empty
      (by decide) (by decide) (by decide) (by decide)⟩

/-- C8: `calculate_serial` is deterministic and depends on the bytes of the
login only: two calls on the same byte sequence, whatever follows the
terminating NUL in memory and whatever the streams hold, both return the same
serial with the streams untouched, or both fail with the same diagnostic and
exit status. -/
theorem C8_deterministic (sgn : Bool) (L junk1 junk2 : List Byte) (w1 w2 : World)
    (h0 : ∀ c ∈ L, c ≠ 0) :
    (∃ v, calculate_serial sgn (L ++ 0 :: junk1) w1 = .ret v w1
        ∧ calculate_serial sgn (L ++ 0 :: junk2) w2 = .ret v w2)
      ∨ (calculate_serial sgn (L ++ 0 :: junk1) w1 = .exit 1 (eprint w1 short_login_message)
        ∧ calculate_serial sgn (L ++ 0 :: junk2) w2
            = .exit 1 (eprint w2 short_login_message)) := by
  by_cases hlen : 4 ≤ L.length
  · exact Or.inl ⟨_, calculate_serial_long sgn L junk1 w1 h0 hlen,
      calculate_serial_long sgn L junk2 w2 h0 hlen⟩
  · have hlt : L.length < 4 := by omega
    exact Or.inr ⟨calculate_serial_short sgn L junk1 w1 h0 hlt,
      calculate_serial_short sgn L junk2 w2 h0 hlt⟩

theorem C8_deterministic_witness :
    (∀ c ∈ ([0x61, 0x64, 0x6D, 0x69, 0x6E] : List Byte), c ≠ 0)
    ∧ ((∃ v, calculate_serial true (([0x61, 0x64, 0x6D, 0x69, 0x6E] : List Byte) ++ 0 :: [0x41])
            World.empty = .ret v World.empty
        ∧ calculate_serial true (([0x61, 0x64, 0x6D, 0x69, 0x6E] : List Byte) ++ 0 :: [])
            ⟨[], "Enter login: ", ""⟩ = .ret v ⟨[], "Enter login: ", ""⟩)
      ∨ (calculate_serial true (([0x61, 0x64, 0x6D, 0x69, 0x6E] : List Byte) ++ 0 :: [0x41])
            World.empty = .exit 1 (eprint World.empty short_login_message)
        ∧ calculate_serial true (([0x61, 0x64, 0x6D, 0x69, 0x6E] : List Byte) ++ 0 :: [])
            ⟨[], "Enter login: ", ""⟩
          = .exit 1 (eprint ⟨[], "Enter login: ", ""⟩ short_login_message))) :=
  ⟨by decide,
    C8_deterministic true [0x61, 0x64, 0x6D, 0x69, 0x6E] [0x41] [] World.empty
      ⟨[], "Enter login: ", ""⟩ (by decide)⟩

/-- C9: for every input given to `main` (at least one character before end of
input): when the login obtained after trimming has length at least 4, `main`
prints "Serial: <n>" and a newline, `<n>` being `calculate_serial(login)` in
unsigned base 10, and ends with status 0; when that login is shorter than 4
bytes, the diagnostic goes to `stderr`, no "Serial:" line is printed, and the
process ends with the non-zero status 1. -/
theorem C9_main_behaviour (sgn : Bool) (login0 : List Byte) (w : World)
    (hbuf : login0.length = 256) (hin : w.stdin ≠ []) :
    (4 ≤ (login_of_input w.stdin).length →
        ∃ serial, (∀ junk w0, calculate_serial sgn (login_of_input w.stdin ++ 0 :: junk) w0
              = .ret serial w0)
          ∧ main sgn login0 w
              = .ret 0 ⟨w.stdin.drop (read_line 255 w.stdin).length,
                  w.stdout ++ "Enter login: " ++ ("Serial: " ++ toString serial ++ "\n"),
                  w.stderr⟩)
      ∧ ((login_of_input w.stdin).length < 4 →
          main sgn login0 w
            = .exit 1 ⟨w.stdin.drop (read_line 255 w.stdin).length,
                w.stdout ++ "Enter login: ",
                w.stderr ++ "Login must be at least 4 characters\n"⟩) := by
  obtain ⟨rest, hmain⟩ := main_eq sgn login0 w hbuf hin
  have h0 : ∀ c ∈ login_of_input w.stdin, c ≠ 0 :=
    fun c hc => (takeWhile_login_chars (read_line 255 w.stdin) c hc).1
  constructor
  · intro hlen
    refine ⟨_, fun junk w0 => calculate_serial_long sgn _ junk w0 h0 hlen, ?_⟩
    rw [hmain, calculate_serial_long sgn _ rest _ h0 hlen]
    rfl
  · intro hlen
    rw [hmain, calculate_serial_short sgn _ rest _ h0 hlen]
    rfl

theorem C9_main_behaviour_witness :
    (sample_array.length = 256 ∧ sample_session.stdin ≠ [])
    ∧ ((4 ≤ (login_of_input sample_session.stdin).length →
          ∃ serial, (∀ junk w0,
              calculate_serial true (login_of_input sample_session.stdin ++ 0 :: junk) w0
                = .ret serial w0)
            ∧ main true sample_array sample_session
                = .ret 0 ⟨sample_session.stdin.drop (read_line 255 sample_session.stdin).length,
                    sample_session.stdout ++ "Enter login: "
                      ++ ("Serial: " ++ toString serial ++ "\n"),
                    sample_session.stderr⟩)
      ∧ ((login_of_input sample_session.stdin).length < 4 →
          main true sample_array sample_session
            = .exit 1 ⟨sample_session.stdin.drop (read_line 255 sample_session.stdin).length,
                sample_session.stdout ++ "Enter login: ",
                sample_session.stderr ++ "Login must be at least 4 characters\n"⟩)) :=
  ⟨⟨by decide, by decide⟩,
    C9_main_behaviour true sample_array sample_session (by decide) (by decide)⟩

/-- C10: the trimming of `main` removes exactly one trailing newline when the
line ends with one and changes nothing else: for a line `s` without newline,
the buffer holding `s` and a newline is cut at that newline and then holds the
string `s`, and the buffer holding `s` alone is left as it is, so that spaces,
tabs, carriage returns and all other characters of `s` are kept. -/
theorem C10_trim_newline (s junk : List Byte) (hs : ∀ c ∈ s, c ≠ 0 ∧ c ≠ 10) :
    trim_newline (s ++ 10 :: 0 :: junk) = some (s ++ 0 :: 0 :: junk)
      ∧ (trim_newline (s ++ 10 :: 0 :: junk)).map cstr = some s
      ∧ trim_newline (s ++ 0 :: junk) = some (s ++ 0 :: junk)
      ∧ (trim_newline (s ++ 0 :: junk)).map cstr = some s := by
  have h0 : ∀ c ∈ s, c ≠ 0 := fun c hc => (hs c hc).1
  have h1 := trim_newline_append s (0 :: junk) 10 hs (Or.inr rfl)
  have h2 := trim_newline_append s junk 0 hs (Or.inl rfl)
  refine ⟨h1, ?_, h2, ?_⟩
  · rw [h1, Option.map_some', cstr_append s _ h0]
  · rw [h2, Option.map_some', cstr_append s _ h0]

theorem C10_trim_newline_witness :
    (∀ c ∈ ([0x20, 0x61, 0x09, 0x62, 0x0D, 0x20] : List Byte), c ≠ 0 ∧ c ≠ 10)
    ∧ (trim_newline (([0x20, 0x61, 0x09, 0x62, 0x0D, 0x20] : List Byte) ++ 10 :: 0 :: [0x41])
          = some (([0x20, 0x61, 0x09, 0x62, 0x0D, 0x20] : List Byte) ++ 0 :: 0 :: [0x41])
      ∧ (trim_newline (([0x20, 0x61, 0x09, 0x62, 0x0D, 0x20] : List Byte)
            ++ 10 :: 0 :: [0x41])).map cstr
          = some [0x20, 0x61, 0x09, 0x62, 0x0D, 0x20]
      ∧ trim_newline (([0x20, 0x61, 0x09, 0x62, 0x0D, 0x20] : List Byte) ++ 0 :: [0x41])
          = some (([0x20, 0x61, 0x09, 0x62, 0x0D, 0x20] : List Byte) ++ 0 :: [0x41])
      ∧ (trim_newline (([0x20, 0x61, 0x09, 0x62, 0x0D, 0x20] : List Byte)
            ++ 0 :: [0x41])).map cstr
          = some [0x20, 0x61, 0x09, 0x62, 0x0D, 0x20]) :=
  ⟨by decide, C10_trim_newline [0x20, 0x61, 0x09, 0x62, 0x0D, 0x20] [0x41] (by decide)⟩

/-- C11, as the specification states it, fails where `char` is signed: for
`v = 0xFFFFFFFF` and the byte `0x80` the sum `v + ((v XOR 0x80) mod 1337)` is
`2^32 + 399`, but the step XORs with the converted byte `0xFFFFFF80` and
produces 126, not 399. -/
theorem C11_counterexample :
    2 ^ 32 ≤ 0xFFFFFFFF + (0xFFFFFFFF ^^^ (0x80 : Byte).val) % 1337
      ∧ 0xFFFFFFFF + (0xFFFFFFFF ^^^ (0x80 : Byte).val) % 1337 - 2 ^ 32 = 399
      ∧ v4_step true 0xFFFFFFFF 0x80 = 126
      ∧ v4_step true 0xFFFFFFFF 0x80
          ≠ 0xFFFFFFFF + (0xFFFFFFFF ^^^ (0x80 : Byte).val) % 1337 - 2 ^ 32 := by
  decide

/-- C11, amended: the update step of the loop wraps on overflow.  For every
32-bit value `v` and every byte `c`, with `u` the byte converted as C converts
`char` to `unsigned int` (`u = c` for a byte below 0x80 or an unsigned `char`),
such that `v + ((v XOR u) mod 1337) >= 2^32`, the step produces
`v + ((v XOR u) mod 1337) - 2^32`, the sum reduced modulo `2^32`; it does not
saturate at `0xFFFFFFFF` (the result is below 1336) and the loop round does not
fail. -/
theorem C11_step_wraps (sgn : Bool) (v : Nat) (c : Byte) (hv : v < 2 ^ 32)
    (hov : 2 ^ 32 ≤ v + (v ^^^ toUnsignedInt sgn c) % 1337) :
    v4_step sgn v c = v + (v ^^^ toUnsignedInt sgn c) % 1337 - 2 ^ 32
      ∧ v4_step sgn v c = (v + (v ^^^ toUnsignedInt sgn c) % 1337) % 2 ^ 32
      ∧ v4_step sgn v c < 1336
      ∧ v4_step sgn v c ≠ 0xFFFFFFFF
      ∧ serial_loop sgn [c] 1 0 v = some (v4_step sgn v c)
      ∧ ((sgn = false ∨ c.val ≤ 0x7F) →
          v4_step sgn v c = v + (v ^^^ c.val) % 1337 - 2 ^ 32) := by
  have hinc := Nat.mod_lt (v ^^^ toUnsignedInt sgn c) (show 0 < 1337 by norm_num)
  have hstep : v4_step sgn v c = (v + (v ^^^ toUnsignedInt sgn c) % 1337) % 2 ^ 32 := by
    unfold v4_step UINT_SIZE
    exact Eq.refl _
  have hsub : v4_step sgn v c = v + (v ^^^ toUnsignedInt sgn c) % 1337 - 2 ^ 32 := by
    rw [hstep]
    generalize (v ^^^ toUnsignedInt sgn c) % 1337 = inc at hinc hov
    omega
  refine ⟨hsub, hstep, ?_, ?_, ?_, ?_⟩
  · rw [hsub]
    omega
  · rw [hsub]
    omega
  · simp only [serial_loop, List.getElem?_cons_zero]
  · intro h
    have hu : toUnsignedInt sgn c = c.val := by
      rcases h with h | h
      · subst h
        simp [toUnsignedInt]
      · exact toUnsignedInt_low sgn c h
    rw [hsub, hu]

theorem C11_step_wraps_witness :
    ((0xFFFFFFFF : Nat) < 2 ^ 32
      ∧ 2 ^ 32 ≤ 0xFFFFFFFF + (0xFFFFFFFF ^^^ toUnsignedInt true 0x41) % 1337)
    ∧ (v4_step true 0xFFFFFFFF 0x41
          = 0xFFFFFFFF + (0xFFFFFFFF ^^^ toUnsignedInt true 0x41) % 1337 - 2 ^ 32
      ∧ v4_step true 0xFFFFFFFF 0x41
          = (0xFFFFFFFF + (0xFFFFFFFF ^^^ toUnsignedInt true 0x41) % 1337) % 2 ^ 32
      ∧ v4_step true 0xFFFFFFFF 0x41 < 1336
      ∧ v4_step true 0xFFFFFFFF 0x41 ≠ 0xFFFFFFFF
      ∧ serial_loop true [0x41] 1 0 0xFFFFFFFF = some (v4_step true 0xFFFFFFFF 0x41)
      ∧ ((true = false ∨ (0x41 : Byte).val ≤ 0x7F) →
          v4_step true 0xFFFFFFFF 0x41
            = 0xFFFFFFFF + (0xFFFFFFFF ^^^ (0x41 : Byte).val) % 1337 - 2 ^ 32)) :=
  ⟨⟨by decide, by decide⟩, C11_step_wraps true 0xFFFFFFFF 0x41 (by decide) (by decide)⟩

/-- C12: for a login of length `n`, `4 <= n <= 255`, with all bytes in
0x01..0x7F, the serial `s` satisfies `6226157 <= s <= 6226412 + 1336 * n`: the
seed lies in `[6226157, 6226412]`, every loop step adds between 0 and 1336, no
addition of the seed or of the loop reaches `2^32`, and the serial is the seed
plus the increments computed over the unbounded integers. -/
theorem C12_serial_bounds (sgn : Bool) (L junk : List Byte) (w : World)
    (hlen : 4 ≤ L.length) (hn : L.length ≤ 255)
    (hb : ∀ c ∈ L, 1 ≤ c.val ∧ c.val ≤ 0x7F) :
    ∃ s, calculate_serial sgn (L ++ 0 :: junk) w = .ret s w
      ∧ (6226157 ≤ s ∧ s ≤ 6226412 + 1336 * L.length)
      ∧ (6226157 ≤ exact_seed ((zero_extend L).getD 3 0)
          ∧ exact_seed ((zero_extend L).getD 3 0) ≤ 6226412)
      ∧ (∀ v c, v ≤ exact_step v c ∧ exact_step v c ≤ v + 1336)
      ∧ (∀ k, ((zero_extend L).take k).foldl exact_step
            (exact_seed ((zero_extend L).getD 3 0)) < 2 ^ 32)
      ∧ s = exact_serial (zero_extend L) := by
  have h0 : ∀ c ∈ L, c ≠ 0 := by
    intro c hc h
    have := (hb c hc).1
    rw [h] at this
    exact absurd this (by decide)
  have h3 : 3 < L.length := by omega
  have hc3 : L[3].val ≤ 0x7F := (hb L[3] (List.getElem_mem h3)).2
  have hget : (zero_extend L).getD 3 0 = L[3].val := by
    simp [zero_extend, List.getD_eq_getElem?_getD, List.getElem?_eq_getElem h3]
  have hseed := exact_seed_bounds L[3].val hc3
  have hzlen : (zero_extend L).length = L.length := by simp [zero_extend]
  have hbound := foldl_exact_step_bounds (zero_extend L) (exact_seed L[3].val)
  have heq := foldl_spec_step_eq_exact (zero_extend L) (exact_seed L[3].val)
    (by rw [hzlen]; omega)
  have hserial : spec_serial (zero_extend L) = exact_serial (zero_extend L) := by
    unfold spec_serial exact_serial
    rw [hget, ← heq]
    have hs : spec_seed L[3].val = exact_seed L[3].val := by
      unfold spec_seed
      exact Nat.mod_eq_of_lt (by unfold exact_seed at hseed; omega)
    rw [hs]
  refine ⟨exact_serial (zero_extend L), ?_, ?_, ?_, exact_step_bounds, ?_, rfl⟩
  · rw [calculate_serial_ascii sgn L junk w hlen hb, hserial]
  · unfold exact_serial
    rw [hget]
    rw [hzlen] at hbound
    omega
  · rw [hget]
    omega
  · intro k
    rw [hget]
    have hk := foldl_exact_step_bounds ((zero_extend L).take k) (exact_seed L[3].val)
    have hkl : ((zero_extend L).take k).length ≤ L.length := by
      rw [List.length_take, hzlen]
      exact Nat.min_le_right _ _
    have hmul : 1336 * ((zero_extend L).take k).length ≤ 1336 * L.length :=
      Nat.mul_le_mul_left _ hkl
    omega

theorem C12_serial_bounds_witness :
    (4 ≤ ([0x6C, 0x6F, 0x67, 0x69, 0x6E] : List Byte).length
      ∧ ([0x6C, 0x6F, 0x67, 0x69, 0x6E] : List Byte).length ≤ 255
      ∧ (∀ c ∈ ([0x6C, 0x6F, 0x67, 0x69, 0x6E] : List Byte), 1 ≤ c.val ∧ c.val ≤ 0x7F))
    ∧ ∃ s, calculate_serial true (([0x6C, 0x6F, 0x67, 0x69, 0x6E] : List Byte) ++ 0 :: [])
          World.empty = .ret s World.empty
        ∧ (6226157 ≤ s
          ∧ s ≤ 6226412 + 1336 * ([0x6C, 0x6F, 0x67, 0x69, 0x6E] : List Byte).length)
        ∧ (6226157 ≤ exact_seed ((zero_extend [0x6C, 0x6F, 0x67, 0x69, 0x6E]).getD 3 0)
          ∧ exact_seed ((zero_extend [0x6C, 0x6F, 0x67, 0x69, 0x6E]).getD 3 0) ≤ 6226412)
        ∧ (∀ v c, v ≤ exact_step v c ∧ exact_step v c ≤ v + 1336)
        ∧ (∀ k, ((zero_extend [0x6C, 0x6F, 0x67, 0x69, 0x6E]).take k).foldl exact_step
              (exact_seed ((zero_extend [0x6C, 0x6F, 0x67, 0x69, 0x6E]).getD 3 0)) < 2 ^ 32)
        ∧ s = exact_serial (zero_extend [0x6C, 0x6F, 0x67, 0x69, 0x6E]) :=
  ⟨⟨by decide, by decide, by decide⟩,
    C12_serial_bounds true [0x6C, 0x6F, 0x67, 0x69, 0x6E] [] World.empty
      (by decide) (by decide) (by decide)⟩

/-- C13: appending a byte extends the serial by exactly one update step: for a
login `L` of length at least 4 and a byte `c` in 0x01..0x7F,
`calculate_serial(L ++ [c])` is
`(calculate_serial(L) + ((calculate_serial(L) XOR c) mod 1337)) mod 2^32`; the
seed depends on the byte at index 3 only and the loop is a left fold over the
bytes. -/
theorem C13_append_byte (sgn : Bool) (L junk1 junk2 : List Byte) (w : World) (c : Byte)
    (h0 : ∀ b ∈ L, b ≠ 0) (hlen : 4 ≤ L.length) (hc : 1 ≤ c.val ∧ c.val ≤ 0x7F) :
    ∃ s, calculate_serial sgn (L ++ 0 :: junk1) w = .ret s w
      ∧ calculate_serial sgn ((L ++ [c]) ++ 0 :: junk2) w
          = .ret ((s + (s ^^^ c.val) % 1337) % 2 ^ 32) w := by
  refine ⟨_, calculate_serial_long sgn L junk1 w h0 hlen, ?_⟩
  have hc0 : c ≠ 0 := by
    intro h
    have := hc.1
    rw [h] at this
    exact absurd this (by decide)
  have h0c : ∀ b ∈ L ++ [c], b ≠ 0 := by
    intro b hb
    rcases List.mem_append.mp hb with hb | hb
    · exact h0 b hb
    · rw [List.mem_singleton.mp hb]
      exact hc0
  have hlenc : 4 ≤ (L ++ [c]).length := by
    rw [List.length_append]
    omega
  have h3 : 3 < L.length := by omega
  have hget : (L ++ [c]).getD 3 0 = L.getD 3 0 := by
    rw [List.getD_eq_getElem?_getD, List.getD_eq_getElem?_getD, List.getElem?_append_left h3]
  have hstep : ∀ v, v4_step sgn v c = (v + (v ^^^ c.val) % 1337) % 2 ^ 32 := by
    intro v
    unfold v4_step UINT_SIZE
    rw [toUnsignedInt_low sgn c hc.2]
  rw [calculate_serial_long sgn (L ++ [c]) junk2 w h0c hlenc, hget, List.foldl_append,
    List.foldl_cons, List.foldl_nil, hstep]

theorem C13_append_byte_witness :
    ((∀ b ∈ ([0x72, 0x6F, 0xF4, 0x74] : List Byte), b ≠ 0)
      ∧ 4 ≤ ([0x72, 0x6F, 0xF4, 0x74] : List Byte).length
      ∧ (1 ≤ (0x21 : Byte).val ∧ (0x21 : Byte).val ≤ 0x7F))
    ∧ ∃ s, calculate_serial true (([0x72, 0x6F, 0xF4, 0x74] : List Byte) ++ 0 :: [0x41])
          World.empty = .ret s World.empty
        ∧ calculate_serial true ((([0x72, 0x6F, 0xF4, 0x74] : List Byte) ++ [0x21]) ++ 0 :: [])
            World.empty
          = .ret ((s + (s ^^^ (0x21 : Byte).val) % 1337) % 2 ^ 32) World.empty :=
  ⟨⟨by decide, by decide, by decide⟩,
    C13_append_byte true [0x72, 0x6F, 0xF4, 0x74] [0x41] [] World.empty 0x21
      (by decide) (by decide) (by decide)⟩

end Keygen
